import Mathlib

/-!
# Verification of the `lang.js` small-step reducer

A shallow embedding of the term model and the reduction engine of the
repository's `lang.js` (term predicates `isSym`/`isNil`, the builtin table,
structural equality `equals`, substitution `rewrite`, and the step engine
`canStep`/`step`), together with theorems settling the spec's claims.

Modelling conventions:
* JS `Data` values (`Sym`, `Str`, `number`, arrays) become the inductive
  `Lang.Data`.  The extra constructor `Data.undef` models the JS value
  `undefined`, which leaks out of `step` when a special form lacks an
  operand (`input[2]` on a too-short list); it is not a term of the
  language, and `noUndef` recognises genuine terms.
* JS numbers are IEEE-754 doubles; the embedding abstracts the numeric
  payload as `Int` (no claim under verification depends on numeric results;
  arithmetic builtins are carried along faithfully in structure, with
  32-bit truncation for the bitwise family as in JS).
* Fallible code becomes `Except Err`.  The source throws `TypeError` with
  distinct messages; `Err` records the spec's error kinds instead of the
  message strings, plus `Err.native` for the TypeError JS raises itself
  when a property of `undefined` is read (e.g. `canStep(undefined)`).
* JS `xs[i]` (which yields `undefined` out of range) is `jsIdx`, and
  `a ?? b` (nullish coalescing) is `jsOr`.
-/

namespace Lang

/-- The term model: `Sym`/`Str` (branded strings in JS), numbers, lists,
plus JS `undefined` (see module docstring). -/
inductive Data where
  | sym (s : String)
  | str (s : String)
  | num (n : Int)
  | list (xs : List Data)
  | undef

mutual
/-- Structural equality on `Data` (used for the `DecidableEq` instance and
as the model of JS `===`, which on our value model coincides with
structural equality; see `equals` below). -/
def beqData : Data → Data → Bool
  | .sym a, .sym b => a == b
  | .str a, .str b => a == b
  | .num a, .num b => a == b
  | .list xs, .list ys => beqDataList xs ys
  | .undef, .undef => true
  | _, _ => false
def beqDataList : List Data → List Data → Bool
  | [], [] => true
  | x :: xs, y :: ys => beqData x y && beqDataList xs ys
  | _, _ => false
end

mutual
theorem beqData_iff : ∀ a b : Data, beqData a b = true ↔ a = b
  | .sym _, .sym _ => by simp [beqData]
  | .sym _, .str _ => by simp [beqData]
  | .sym _, .num _ => by simp [beqData]
  | .sym _, .list _ => by simp [beqData]
  | .sym _, .undef => by simp [beqData]
  | .str _, .sym _ => by simp [beqData]
  | .str _, .str _ => by simp [beqData]
  | .str _, .num _ => by simp [beqData]
  | .str _, .list _ => by simp [beqData]
  | .str _, .undef => by simp [beqData]
  | .num _, .sym _ => by simp [beqData]
  | .num _, .str _ => by simp [beqData]
  | .num _, .num _ => by simp [beqData]
  | .num _, .list _ => by simp [beqData]
  | .num _, .undef => by simp [beqData]
  | .list _, .sym _ => by simp [beqData]
  | .list _, .str _ => by simp [beqData]
  | .list _, .num _ => by simp [beqData]
  | .list xs, .list ys => by simp [beqData, beqDataList_iff xs ys]
  | .list _, .undef => by simp [beqData]
  | .undef, .sym _ => by simp [beqData]
  | .undef, .str _ => by simp [beqData]
  | .undef, .num _ => by simp [beqData]
  | .undef, .list _ => by simp [beqData]
  | .undef, .undef => by simp [beqData]
theorem beqDataList_iff : ∀ xs ys : List Data, beqDataList xs ys = true ↔ xs = ys
  | [], [] => by simp [beqDataList]
  | [], _ :: _ => by simp [beqDataList]
  | _ :: _, [] => by simp [beqDataList]
  | x :: xs, y :: ys => by
      simp [beqDataList, beqData_iff x y, beqDataList_iff xs ys]
end

instance : DecidableEq Data := fun a b =>
  decidable_of_iff (beqData a b = true) (beqData_iff a b)

/-- The error kinds of §7 of the spec, plus `native` for the TypeError JS
itself raises when the engine reads a property of `undefined`. -/
inductive Err where
  | undefinedSymbol (name : String)
  | invalidOperator
  | invalidLambdaShape
  | typeErr
  | native
  deriving DecidableEq

/-- The error kinds the spec defines (everything except the native
undefined-property-access TypeError). -/
def definedKind : Err → Bool
  | .native => false
  | _ => true

@[simp] theorem pure_eq_ok {α : Type _} (a : α) : (pure a : Except Err α) = .ok a := rfl

@[simp] theorem throw_eq_error {α : Type _} (e : Err) : (throw e : Except Err α) = .error e := rfl

@[simp] theorem ok_bind {α β : Type _} (a : α) (f : α → Except Err β) :
    (Except.ok a >>= f) = f a := rfl

@[simp] theorem error_bind {α β : Type _} (e : Err) (f : α → Except Err β) :
    ((Except.error e : Except Err α) >>= f) = .error e := rfl

theorem bind_eq_ok {α β : Type _} {x : Except Err α} {f : α → Except Err β} {b : β} :
    x >>= f = .ok b ↔ ∃ a, x = .ok a ∧ f a = .ok b := by
  cases x <;> simp

/-- JS array indexing `xs[i]`: yields `undefined` out of range. -/
def jsIdx (xs : List Data) (i : Nat) : Data := ((xs[i]?).getD .undef)

/-- JS nullish coalescing `a ?? b` (our only nullish value is `undef`). -/
def jsOr (a b : Data) : Data :=
  match a with
  | .undef => b
  | _ => a

-- The interned special-form symbols of lang.js.
def SYM_CONS : Data := .sym "cons"
def SYM_QUOTE : Data := .sym "quote"
def SYM_LAMBDA : Data := .sym "lambda"
def SYM_IF : Data := .sym "if"
def SYM_AND : Data := .sym "and"
def SYM_OR : Data := .sym "or"

/-- `const nil = [SYM_QUOTE, []]` -/
def nilD : Data := .list [SYM_QUOTE, .list []]

/-- `const true_ = [SYM_QUOTE, sym("true")]` -/
def trueD : Data := .list [SYM_QUOTE, .sym "true"]

/-- JS `isSym` (a branded `sym!` string; our `Data.sym`). -/
def isSym : Data → Bool
  | .sym _ => true
  | _ => false

/-- JS `typeof` on `Data` values. -/
def jsTypeof : Data → String
  | .num _ => "number"
  | .sym _ => "string"
  | .str _ => "string"
  | .list _ => "object"
  | .undef => "undefined"

/-- `isNil`: `isArray(input) && input[0] === SYM_QUOTE && isArray(input[1])
&& input[1].length === 0`.  (Note: the length of `input` itself is not
checked, so e.g. `(quote () 99)` also counts as nil.) -/
def isNil : Data → Bool
  | .list xs =>
      jsIdx xs 0 == SYM_QUOTE &&
        (match jsIdx xs 1 with
         | .list ys => ys.isEmpty
         | _ => false)
  | _ => false

/-- The keys of the `builtins` record, in source order. -/
def builtinNames : List String :=
  ["add", "sub", "mul", "div", "rem", "pow",
   "band", "bor", "bxor", "bnot", "shl", "shr", "shru",
   "eql", "neq", "gt", "gte", "lt", "lte",
   "not",
   "cons", "car", "cdr",
   "typeof"]

/-- JS `input in builtins` for a symbol `sym!s`. -/
def isBuiltinName (s : String) : Bool := builtinNames.contains s

theorem one_le_sizeOf (t : Data) : 1 ≤ sizeOf t := by
  cases t <;> simp only [Data.sym.sizeOf_spec, Data.str.sizeOf_spec, Data.num.sizeOf_spec,
    Data.list.sizeOf_spec, Data.undef.sizeOf_spec] <;> omega

theorem one_le_sizeOf_list (xs : List Data) : 1 ≤ sizeOf xs := by
  cases xs <;> simp only [List.nil.sizeOf_spec, List.cons.sizeOf_spec] <;> omega

theorem sizeOf_jsIdx_le (xs : List Data) (i : Nat) : sizeOf (jsIdx xs i) ≤ sizeOf xs := by
  unfold jsIdx
  cases h : xs[i]? with
  | none =>
      simp only [Option.getD_none, Data.undef.sizeOf_spec]
      exact one_le_sizeOf_list xs
  | some v =>
      simp only [Option.getD_some]
      have hm : v ∈ xs := List.getElem?_mem h
      have := List.sizeOf_lt_of_mem hm
      omega

theorem sizeOf_jsIdx_lt (xs : List Data) (i : Nat) :
    sizeOf (jsIdx xs i) < sizeOf (Data.list xs) := by
  have := sizeOf_jsIdx_le xs i
  simp only [Data.list.sizeOf_spec]
  omega

/-- Termination bound for `canStep`: the recursive calls go either to an
element of the list or to the constant `nilD` (via `?? nil`), so `nilD`
is given measure `0`. -/
theorem canStepMeasure_lt (xs : List Data) (i : Nat)
    (h : jsIdx xs 0 = SYM_CONS) :
    (if jsOr (jsIdx xs i) nilD = nilD then 0 else 1 + sizeOf (jsOr (jsIdx xs i) nilD)) <
      (if Data.list xs = nilD then 0 else 1 + sizeOf (Data.list xs)) := by
  have hne : Data.list xs ≠ nilD := by
    intro he
    have hxs : xs = [SYM_QUOTE, .list []] := by injection he
    subst hxs
    simp [jsIdx, SYM_QUOTE, SYM_CONS] at h
  rw [if_neg hne]
  by_cases h2 : jsOr (jsIdx xs i) nilD = nilD
  · rw [if_pos h2]
    have := one_le_sizeOf (Data.list xs)
    omega
  · rw [if_neg h2]
    have h1 := sizeOf_jsIdx_lt xs i
    rcases hv : jsIdx xs i with _ | _ | _ | _ | _ <;> rw [hv] at h1 h2 <;>
      simp only [jsOr] at h2 ⊢ <;> first | omega | simp at h2

/-- `canStep(input)`: whether a `step` call would do work.  Faithful to the
source including the quirks: a bare non-builtin symbol is steppable, a
`cons`-headed list is steppable iff one of its (first two) contents is,
and only `nil`, quoted symbols and `lambda`-lists are filtered before the
default `true`.  `canStep(undefined)` throws in JS (property read on
`undefined`), modelled by `Err.native`. -/
def canStep : Data → Except Err Bool
  | .num _ => pure false
  | .sym s => pure (!isBuiltinName s)
  | .str _ => pure false
  | .undef => throw .native
  | .list xs =>
    if h : jsIdx xs 0 = SYM_CONS then do
      if (← canStep (jsOr (jsIdx xs 1) nilD)) then pure true
      else canStep (jsOr (jsIdx xs 2) nilD)
    else if isNil (.list xs) then pure false
    else if jsIdx xs 0 = SYM_QUOTE ∧ isSym (jsIdx xs 1) then pure false
    else if jsIdx xs 0 = SYM_LAMBDA then pure false
    else pure true
termination_by t => if t = nilD then 0 else 1 + sizeOf t
decreasing_by
  · exact canStepMeasure_lt xs 1 h
  · exact canStepMeasure_lt xs 2 h

/-- JS `l[i]` as used inside `equals`: for an array, ordinary indexing; for
any other value it is modelled as `undefined`.  (In JS, string indexing
would yield a one-character string, but under the `typeof l === typeof r`
guard of `equals` the index is only ever taken on an array.) -/
def jsIndexOn (l : Data) (i : Nat) : Data :=
  match l with
  | .list ls => jsIdx ls i
  | _ => .undef

theorem sizeOf_jsIndexOn_le (l : Data) (i : Nat) : sizeOf (jsIndexOn l i) ≤ sizeOf l := by
  cases l with
  | sym s => exact one_le_sizeOf _
  | str s => exact one_le_sizeOf _
  | num n => exact one_le_sizeOf _
  | undef => exact one_le_sizeOf _
  | list ls =>
      have := sizeOf_jsIdx_lt ls i
      simp only [jsIndexOn]
      omega

mutual
/-- `equals(l, r)`: `typeof l === typeof r && (r === l || (Array.isArray(r)
&& r.every((e, i) => equals(e, l[i]))))`.  JS `===` on our value model is
structural equality (array reference equality implies elementwise equality,
and the abstracted `Int` payload has no `NaN`). -/
def equals (l r : Data) : Bool :=
  jsTypeof l == jsTypeof r &&
    (l == r ||
      (match r with
       | .list rs => equalsEvery l rs 0
       | _ => false))
termination_by sizeOf l + sizeOf r
decreasing_by
  simp only [Data.list.sizeOf_spec]
  omega
/-- The `r.every((e, i) => equals(e, l[i]))` loop of `equals`. -/
def equalsEvery (l : Data) (rs : List Data) (i : Nat) : Bool :=
  match rs with
  | [] => true
  | e :: rest => equals e (jsIndexOn l i) && equalsEvery l rest (i + 1)
termination_by sizeOf l + sizeOf rs
decreasing_by
  · have h1 := sizeOf_jsIndexOn_le l i
    have h2 := one_le_sizeOf e
    simp only [List.cons.sizeOf_spec]
    omega
  · simp only [List.cons.sizeOf_spec]
    have := one_le_sizeOf e
    omega
end

/-- `assertNumber`, returning the numeric payload.  Throws the spec's
`TypeError` kind on anything that is not a number. -/
def assertNumber : Data → Except Err Int
  | .num n => pure n
  | _ => throw .typeErr

/-- `assertCons`: `isArray(value) && value.length === 3 && value[0] ===
SYM_CONS`, returning the two held values. -/
def assertCons : Data → Except Err (Data × Data)
  | .list [c, h, t] => if c = SYM_CONS then pure (h, t) else throw .typeErr
  | _ => throw .typeErr

-- 32-bit truncation helpers for the bitwise builtins (JS coerces through
-- ToInt32/ToUint32; the numeric payload itself is abstracted as `Int`).
def toUint32 (n : Int) : Nat := (n % (2 ^ 32 : Int)).toNat

def toInt32 (n : Int) : Int :=
  let m := toUint32 n
  if m < 2 ^ 31 then (m : Int) else (m : Int) - 2 ^ 32

/-- `typeof` builtin: quoted symbol naming the dynamic kind. -/
def typeofBuiltin (v : Data) : Data :=
  if isNil v then .list [SYM_QUOTE, .sym "nil"]
  else
    match v with
    | .list vs =>
        .list [SYM_QUOTE,
          if jsIdx vs 0 = SYM_QUOTE ∧ isSym (jsIdx vs 1) then .sym "symbol" else .sym "list"]
    | _ => .list [SYM_QUOTE, .sym (jsTypeof v)]

/-- The builtin table, dispatched by symbol name; `args` is
`input.slice(1)`, and like in JS, each builtin reads only the parameters
it declares (extras ignored, missing ones `undefined`). -/
def runBuiltin (s : String) (args : List Data) : Except Err Data :=
  let l := jsIdx args 0
  let r := jsIdx args 1
  match s with
  | "add" => do pure (.num ((← assertNumber l) + (← assertNumber r)))
  | "sub" => do pure (.num ((← assertNumber l) - (← assertNumber r)))
  | "mul" => do pure (.num ((← assertNumber l) * (← assertNumber r)))
  | "div" => do pure (.num ((← assertNumber l) / (← assertNumber r)))
  | "rem" => do pure (.num ((← assertNumber l) % (← assertNumber r)))
  | "pow" => do pure (.num ((← assertNumber l) ^ (← assertNumber r).toNat))
  | "band" => do pure (.num (toInt32 (Int.ofNat (Nat.land (toUint32 (← assertNumber l)) (toUint32 (← assertNumber r))))))
  | "bor" => do pure (.num (toInt32 (Int.ofNat (Nat.lor (toUint32 (← assertNumber l)) (toUint32 (← assertNumber r))))))
  | "bxor" => do pure (.num (toInt32 (Int.ofNat (Nat.xor (toUint32 (← assertNumber l)) (toUint32 (← assertNumber r))))))
  | "bnot" => do pure (.num (toInt32 (-(toInt32 (← assertNumber l)) - 1)))
  | "shl" => do pure (.num (toInt32 (toInt32 (← assertNumber l) * (2 ^ (toUint32 (← assertNumber r) % 32)))))
  | "shr" => do pure (.num (Int.fdiv (toInt32 (← assertNumber l)) (2 ^ (toUint32 (← assertNumber r) % 32))))
  | "shru" => do pure (.num (Int.ofNat ((toUint32 (← assertNumber l)) >>> (toUint32 (← assertNumber r) % 32))))
  | "eql" => pure (if equals l r then trueD else nilD)
  | "neq" => pure (if !equals l r then trueD else nilD)
  | "gt" => do pure (if (← assertNumber l) > (← assertNumber r) then trueD else nilD)
  | "gte" => do pure (if (← assertNumber l) ≥ (← assertNumber r) then trueD else nilD)
  | "lt" => do pure (if (← assertNumber l) < (← assertNumber r) then trueD else nilD)
  | "lte" => do pure (if (← assertNumber l) ≤ (← assertNumber r) then trueD else nilD)
  | "not" => pure (if isNil l then trueD else nilD)
  | "cons" => pure (.list [SYM_CONS, jsOr l nilD, jsOr r nilD])
  | "car" => do pure (← assertCons l).1
  | "cdr" => do pure (← assertCons l).2
  | "typeof" => pure (typeofBuiltin l)
  | _ => throw .native

/-- The substitution environment: JS `Map<Sym, Data>` keyed by symbol
name.  Entries added later shadow earlier ones (`mapGet` takes the first
match, and `buildMapping`/`mapSet` prepends recents), matching `Map.set`
overwrite semantics observably. -/
abbrev Mapping := List (String × Data)

def mapGet (m : Mapping) (k : String) : Option Data :=
  (m.find? (fun e => e.1 == k)).map (·.2)

def mapDelete (m : Mapping) (k : String) : Mapping :=
  m.filter (fun e => !(e.1 == k))

/-- The parameter-shadowing loop of `rewrite`'s lambda case: for each
symbol in the lambda's own parameter list, delete it from the mapping. -/
def deleteBindings (m : Mapping) (params : Data) : Mapping :=
  match params with
  | .list bs =>
      bs.foldl (fun acc b => match b with | .sym s => mapDelete acc s | _ => acc) m
  | _ => m

mutual
/-- `rewrite(data, mapping)`: capture-unaware substitution.  Quoted lists
pass through untouched; a lambda shields its own parameters; other lists
recurse elementwise.  `rewrite(undefined, _)` (possible when a malformed
inner `(lambda x)` has no body, so `data[2]` is `undefined`) throws in JS
on the `data[0]` read, hence `Err.native`. -/
def rewrite (data : Data) (mapping : Mapping) : Except Err Data :=
  match data with
  | .sym s =>
      match mapGet mapping s with
      | some v => pure (jsOr v (.sym s))
      | none => pure (.sym s)
  | .str s => pure (.str s)
  | .num n => pure (.num n)
  | .undef => throw .native
  | .list xs =>
      if jsIdx xs 0 = SYM_QUOTE then pure (.list xs)
      else if jsIdx xs 0 = SYM_LAMBDA then do
        let newMapping := deleteBindings mapping (jsIdx xs 1)
        pure (.list [SYM_LAMBDA, jsOr (jsIdx xs 1) nilD, ← rewrite (jsIdx xs 2) newMapping])
      else do
        pure (.list (← rewriteList xs mapping))
termination_by sizeOf data
decreasing_by
  · exact sizeOf_jsIdx_lt xs 2
  · simp only [Data.list.sizeOf_spec]
    omega
/-- The `data.map((value) => rewrite(value, mapping))` of `rewrite`. -/
def rewriteList (xs : List Data) (mapping : Mapping) : Except Err (List Data) :=
  match xs with
  | [] => pure []
  | x :: rest => do pure ((← rewrite x mapping) :: (← rewriteList rest mapping))
termination_by sizeOf xs
decreasing_by
  all_goals
    simp only [List.cons.sizeOf_spec]
    omega
end

/-- The redex-search loop of `step`: the index of the first element with
`canStep` true, scanning from index 0; errors from `canStep` propagate. -/
def findRedex : (xs : List Data) → Except Err (Option (Fin xs.length))
  | [] => pure none
  | x :: rest => do
    if (← canStep x) then pure (some ⟨0, by simp⟩)
    else
      match (← findRedex rest) with
      | some i => pure (some i.succ)
      | none => pure none

/-- The symbol's name (parameters are validated to be symbols before this
is used; the default is unreachable). -/
def symName : Data → String
  | .sym s => s
  | _ => ""

/-- The argument-binding loop of `step`'s lambda case:
`mapping.set(paramNames[i], input[i + 1] ?? nil)` for each parameter
index; a later `set` of the same name shadows an earlier one, so the
recursion puts later entries in front of `mapGet`'s first-match search. -/
def buildMapping (ps : List Data) (xs : List Data) (i : Nat) : Mapping :=
  match ps with
  | [] => []
  | p :: rest => buildMapping rest xs (i + 1) ++ [(symName p, jsOr (jsIdx xs (i + 1)) nilD)]

mutual
/-- `step(input)`: one reduction step.  Errors are the spec's kinds plus
`Err.native` where JS itself would throw on an `undefined` access. -/
def step (input : Data) : Except Err Data := do
  if (← canStep input) then
    match input with
    | .sym s => throw (.undefinedSymbol s)
    | .list xs => stepList xs
    | _ => throw .native
  else
    pure input
termination_by sizeOf input
decreasing_by
  simp only [Data.list.sizeOf_spec]
  omega
/-- The body of `step` on a list: special forms `if`/`or`/`and`, then the
leftmost-redex loop, then operator dispatch (lambda, builtin, error).
`canStep(input[1])` on a too-short list is JS `canStep(undefined)`, which
throws (`Err.native`). -/
def stepList (xs : List Data) : Except Err Data :=
  let fn := jsOr (jsIdx xs 0) nilD
  if fn = SYM_IF then
    match xs with
    | x0 :: c :: rest => do
      if (← canStep c) then
        pure (.list (x0 :: (← step c) :: rest))
      else if !isNil c then pure (jsIdx xs 2)
      else pure (jsOr (jsIdx xs 3) nilD)
    | _ => throw .native
  else if fn = SYM_OR then
    match xs with
    | x0 :: c :: rest => do
      if (← canStep c) then
        pure (.list (x0 :: (← step c) :: rest))
      else if isNil c then pure (jsIdx xs 2)
      else pure c
    | _ => throw .native
  else if fn = SYM_AND then
    match xs with
    | x0 :: c :: rest => do
      if (← canStep c) then
        pure (.list (x0 :: (← step c) :: rest))
      else if isNil c then pure nilD
      else pure (jsIdx xs 2)
    | _ => throw .native
  else do
    match (← findRedex xs) with
    | some i => pure (.list (xs.set i.1 (← step (xs.get i))))
    | none =>
      match fn with
      | .list fs =>
        if jsIdx fs 0 = SYM_LAMBDA then
          match jsOr (jsIdx fs 1) nilD with
          | .list ps =>
            if fs.length = 3 ∧ ps.all isSym = true then
              rewrite (jsIdx fs 2) (buildMapping ps xs 0)
            else throw .invalidLambdaShape
          | _ => throw .invalidLambdaShape
        else throw .invalidOperator
      | .sym s =>
        if isBuiltinName s then runBuiltin s (xs.drop 1)
        else throw (.undefinedSymbol s)
      | _ => throw .invalidOperator
termination_by sizeOf xs
decreasing_by
  · simp only [List.cons.sizeOf_spec]
    omega
  · simp only [List.cons.sizeOf_spec]
    omega
  · simp only [List.cons.sizeOf_spec]
    omega
  · obtain ⟨n, hn⟩ := i
    have := List.sizeOf_lt_of_mem (List.get_mem xs n hn)
    omega
end

mutual
/-- A genuine term of the language: no JS `undefined` anywhere inside.
(Everything the parser produces satisfies this; `undefined` only appears
in outputs of `step` on malformed special forms.) -/
def noUndef : Data → Bool
  | .sym _ => true
  | .str _ => true
  | .num _ => true
  | .undef => false
  | .list xs => noUndefList xs
def noUndefList : List Data → Bool
  | [] => true
  | x :: rest => noUndef x && noUndefList rest
end

/-- Reflexive-transitive subterm relation through list elements. -/
inductive Sub : Data → Data → Prop
  | here (t : Data) : Sub t t
  | there {s u : Data} {xs : List Data} : u ∈ xs → Sub s u → Sub s (.list xs)

/-- A list term whose operator position (element 0, defaulted to `nil`
when absent) holds a `lambda`-headed list. -/
def IsLamApp (t : Data) : Prop :=
  ∃ xs fs, t = .list xs ∧ jsOr (jsIdx xs 0) nilD = .list fs ∧ jsIdx fs 0 = SYM_LAMBDA

/-- A self-reproducing lambda application: reducible, but one `step`
returns it unchanged (e.g. `((lambda (x) (x x)) (lambda (x) (x x)))`). -/
def LamAppFix (s : Data) : Prop :=
  canStep s = .ok true ∧ step s = .ok s ∧ IsLamApp s

/-- `(lambda (x) (x x))`. -/
def omegaLam : Data := .list [SYM_LAMBDA, .list [.sym "x"], .list [.sym "x", .sym "x"]]

/-- The self-application `Ω = ((lambda (x) (x x)) (lambda (x) (x x)))`,
whose one-step reduction is itself. -/
def omegaTerm : Data := .list [omegaLam, omegaLam]

-- Basic jsIdx computation lemmas.
theorem jsIdx_nil (n : Nat) : jsIdx [] n = .undef := by
  simp [jsIdx]

theorem jsIdx_cons_zero (x : Data) (xs : List Data) : jsIdx (x :: xs) 0 = x := by
  simp [jsIdx]

theorem jsIdx_cons_succ (x : Data) (xs : List Data) (n : Nat) :
    jsIdx (x :: xs) (n + 1) = jsIdx xs n := by
  simp [jsIdx]

theorem jsIdx_eq_get (xs : List Data) (i : Nat) (h : i < xs.length) :
    jsIdx xs i = xs.get ⟨i, h⟩ := by
  simp [jsIdx, List.getElem?_eq_getElem h]

-- `findRedex` finds exactly the leftmost element on which `canStep` holds.
theorem findRedex_eq_none (xs : List Data) (h : ∀ a ∈ xs, canStep a = .ok false) :
    findRedex xs = .ok none := by
  induction xs with
  | nil => simp [findRedex]
  | cons x rest ih =>
      have hx := h x (by simp)
      have hr := ih (fun a ha => h a (by simp [ha]))
      simp [findRedex, hx, hr]

theorem findRedex_none_mem (xs : List Data) (h : findRedex xs = .ok none) :
    ∀ a ∈ xs, canStep a = .ok false := by
  induction xs with
  | nil => simp
  | cons x rest ih =>
      intro a ha
      rw [findRedex] at h
      cases hx : canStep x with
      | error e => rw [hx] at h; simp at h
      | ok b =>
          rw [hx] at h
          cases b with
          | true => simp at h
          | false =>
              simp only [ok_bind, Bool.false_eq_true, if_false] at h
              cases hr : findRedex rest with
              | error e => rw [hr] at h; simp at h
              | ok r =>
                  rw [hr] at h
                  cases r with
                  | some i => simp at h
                  | none =>
                      rcases List.mem_cons.mp ha with rfl | ha'
                      · exact hx
                      · exact ih hr a ha'

theorem findRedex_some_spec (xs : List Data) (i : Fin xs.length)
    (h : findRedex xs = .ok (some i)) :
    canStep (xs.get i) = .ok true ∧ ∀ j < i.1, canStep (jsIdx xs j) = .ok false := by
  induction xs with
  | nil => exact absurd i.2 (by simp)
  | cons x rest ih =>
      rw [findRedex] at h
      cases hx : canStep x with
      | error e => rw [hx] at h; simp at h
      | ok b =>
          rw [hx] at h
          cases b with
          | true =>
              simp only [ok_bind, if_true] at h
              simp only [pure_eq_ok, Except.ok.injEq, Option.some.injEq] at h
              subst h
              refine ⟨hx, ?_⟩
              intro j hj
              simp at hj
          | false =>
              simp only [ok_bind, Bool.false_eq_true, if_false] at h
              cases hr : findRedex rest with
              | error e => rw [hr] at h; simp at h
              | ok r =>
                  rw [hr] at h
                  cases r with
                  | none => simp at h
                  | some i' =>
                      simp only [ok_bind, pure_eq_ok, Except.ok.injEq,
                        Option.some.injEq] at h
                      subst h
                      obtain ⟨h1, h2⟩ := ih i' hr
                      refine ⟨h1, ?_⟩
                      intro j hj
                      cases j with
                      | zero => rw [jsIdx_cons_zero]; exact hx
                      | succ k =>
                          rw [jsIdx_cons_succ]
                          exact h2 k (by simpa [Fin.succ] using hj)

theorem findRedex_eq_some (xs : List Data) (i : Nat) (hlt : i < xs.length)
    (hbefore : ∀ j < i, canStep (jsIdx xs j) = .ok false)
    (hi : canStep (jsIdx xs i) = .ok true) :
    findRedex xs = .ok (some ⟨i, hlt⟩) := by
  induction xs generalizing i with
  | nil => simp at hlt
  | cons x rest ih =>
      cases i with
      | zero =>
          rw [jsIdx_cons_zero] at hi
          simp [findRedex, hi]
      | succ k =>
          have hx : canStep x = .ok false := by
            have := hbefore 0 (by omega)
            rwa [jsIdx_cons_zero] at this
          have hk : findRedex rest = .ok (some ⟨k, by simpa using hlt⟩) :=
            ih k (by simpa using hlt)
              (fun j hj => by
                have := hbefore (j + 1) (by omega)
                rwa [jsIdx_cons_succ] at this)
              (by rwa [jsIdx_cons_succ] at hi)
          simp [findRedex, hx, hk, Fin.succ]

-- Unfolding lemmas for `step`.
theorem step_irreducible (t : Data) (h : canStep t = .ok false) : step t = .ok t := by
  cases t <;> rw [step, h] <;> simp

theorem step_list_eq (xs : List Data) (h : canStep (.list xs) = .ok true) :
    step (.list xs) = stepList xs := by
  rw [step, h]
  simp

theorem step_sym_nonbuiltin (s : String) (h : isBuiltinName s = false) :
    step (.sym s) = .error (.undefinedSymbol s) := by
  rw [step]
  simp [canStep, h]

theorem jsOr_nilD_ne_undef (a : Data) : jsOr a nilD ≠ .undef := by
  cases a <;> simp [jsOr, nilD]

theorem jsIdx_mem_or_undef (xs : List Data) (i : Nat) :
    jsIdx xs i ∈ xs ∨ jsIdx xs i = .undef := by
  unfold jsIdx
  cases h : xs[i]? with
  | none => right; rfl
  | some v => left; simpa using List.getElem?_mem h

-- Shape lemmas for `canStep` on lists.
theorem canStep_cons_head (xs : List Data) (h : jsIdx xs 0 = SYM_CONS) :
    canStep (.list xs) =
      (do
        if (← canStep (jsOr (jsIdx xs 1) nilD)) then pure true
        else canStep (jsOr (jsIdx xs 2) nilD)) := by
  rw [canStep, dif_pos h]

theorem canStep_lambda_head (xs : List Data) (h : jsIdx xs 0 = SYM_LAMBDA) :
    canStep (.list xs) = .ok false := by
  have hc : jsIdx xs 0 ≠ SYM_CONS := by rw [h]; decide
  have hb : (jsIdx xs 0 == SYM_QUOTE) = false := by
    rw [beq_eq_false_iff_ne, h]
    decide
  have hn : isNil (.list xs) = false := by
    simp [isNil, hb]
  have hq : ¬(jsIdx xs 0 = SYM_QUOTE ∧ isSym (jsIdx xs 1)) := by
    rintro ⟨hq, -⟩
    rw [h] at hq
    exact absurd hq (by decide)
  rw [canStep, dif_neg hc, if_neg (by simp [hn]), if_neg hq, if_pos h]
  rfl

theorem canStep_quote_head (xs : List Data) (h : jsIdx xs 0 = SYM_QUOTE) :
    (canStep (.list xs) = .ok false ↔
      (isSym (jsIdx xs 1) = true ∨ jsIdx xs 1 = .list [])) ∧
    (canStep (.list xs) = .ok true ↔
      ¬(isSym (jsIdx xs 1) = true ∨ jsIdx xs 1 = .list [])) := by
  have hc : jsIdx xs 0 ≠ SYM_CONS := by rw [h]; decide
  have hl : jsIdx xs 0 ≠ SYM_LAMBDA := by rw [h]; decide
  rw [canStep, dif_neg hc]
  by_cases hnil : jsIdx xs 1 = .list []
  · have : isNil (.list xs) = true := by simp [isNil, h, hnil]
    rw [if_pos (by simp [this])]
    simp [hnil]
  · have hn : isNil (.list xs) = false := by
      simp only [isNil, h]
      cases hp : jsIdx xs 1 with
      | list ys =>
          cases ys with
          | nil => exact absurd hp hnil
          | cons y ys' => simp
      | sym s => simp
      | str s => simp
      | num n => simp
      | undef => simp
    rw [if_neg (by simp [hn])]
    by_cases hsym : isSym (jsIdx xs 1) = true
    · rw [if_pos ⟨h, hsym⟩]
      simp [hsym]
    · rw [if_neg (by rintro ⟨-, hs⟩; exact hsym hs), if_neg hl]
      simp [hsym, hnil]

theorem canStep_list_other (xs : List Data)
    (hc : jsIdx xs 0 ≠ SYM_CONS)
    (hq : jsIdx xs 0 ≠ SYM_QUOTE)
    (hl : jsIdx xs 0 ≠ SYM_LAMBDA) :
    canStep (.list xs) = .ok true := by
  have hb : (jsIdx xs 0 == SYM_QUOTE) = false := by
    rw [beq_eq_false_iff_ne]
    exact hq
  have hn : isNil (.list xs) = false := by
    simp [isNil, hb]
  rw [canStep, dif_neg hc, if_neg (by simp [hn]),
    if_neg (by rintro ⟨hq', -⟩; exact hq hq'), if_neg hl]
  rfl

-- Branch lemmas for `stepList`.
theorem stepList_sf_reduce (x0 c : Data) (rest : List Data)
    (hsf : x0 = SYM_IF ∨ x0 = SYM_OR ∨ x0 = SYM_AND)
    (hc : canStep c = .ok true) :
    stepList (x0 :: c :: rest) =
      (step c) >>= fun v => pure (.list (x0 :: v :: rest)) := by
  rw [stepList.eq_def]
  rcases hsf with rfl | rfl | rfl <;>
    simp [jsIdx_cons_zero, jsOr, hc, SYM_IF, SYM_OR, SYM_AND]

theorem stepList_if_select (x0 c : Data) (rest : List Data)
    (hx0 : x0 = SYM_IF) (hc : canStep c = .ok false) :
    stepList (x0 :: c :: rest) =
      if isNil c then pure (jsOr (jsIdx (x0 :: c :: rest) 3) nilD)
      else pure (jsIdx (x0 :: c :: rest) 2) := by
  subst hx0
  rw [stepList.eq_def]
  cases hn : isNil c <;>
    simp [jsIdx_cons_zero, jsOr, hc, hn, SYM_IF, SYM_OR, SYM_AND]

theorem stepList_or_select (x0 c : Data) (rest : List Data)
    (hx0 : x0 = SYM_OR) (hc : canStep c = .ok false) :
    stepList (x0 :: c :: rest) =
      if isNil c then pure (jsIdx (x0 :: c :: rest) 2) else pure c := by
  subst hx0
  rw [stepList.eq_def]
  cases hn : isNil c <;>
    simp [jsIdx_cons_zero, jsOr, hc, hn, SYM_IF, SYM_OR, SYM_AND]

theorem stepList_and_select (x0 c : Data) (rest : List Data)
    (hx0 : x0 = SYM_AND) (hc : canStep c = .ok false) :
    stepList (x0 :: c :: rest) =
      if isNil c then pure nilD else pure (jsIdx (x0 :: c :: rest) 2) := by
  subst hx0
  rw [stepList.eq_def]
  cases hn : isNil c <;>
    simp [jsIdx_cons_zero, jsOr, hc, hn, SYM_IF, SYM_OR, SYM_AND]

theorem stepList_sf_short (xs : List Data)
    (hsf : jsOr (jsIdx xs 0) nilD = SYM_IF ∨ jsOr (jsIdx xs 0) nilD = SYM_OR ∨
      jsOr (jsIdx xs 0) nilD = SYM_AND)
    (hshort : ∀ x0 c rest, xs ≠ x0 :: c :: rest) :
    stepList xs = .error .native := by
  rcases xs with _ | ⟨x0, _ | ⟨c, rest⟩⟩
  · exfalso
    rcases hsf with hf | hf | hf <;>
      simp [jsIdx_nil, jsOr, nilD, SYM_IF, SYM_OR, SYM_AND] at hf
  · have hx0 : jsOr x0 nilD = SYM_IF ∨ jsOr x0 nilD = SYM_OR ∨ jsOr x0 nilD = SYM_AND := by
      simpa [jsIdx_cons_zero] using hsf
    rw [stepList.eq_def]
    rcases hx0 with hf | hf | hf <;>
      simp [jsIdx_cons_zero, hf, SYM_IF, SYM_OR, SYM_AND]
  · exact absurd rfl (hshort x0 c rest)

theorem stepList_app_redex (xs : List Data)
    (hif : jsOr (jsIdx xs 0) nilD ≠ SYM_IF)
    (hor : jsOr (jsIdx xs 0) nilD ≠ SYM_OR)
    (hand : jsOr (jsIdx xs 0) nilD ≠ SYM_AND)
    (i : Fin xs.length) (hfind : findRedex xs = .ok (some i)) :
    stepList xs = (step (xs.get i)) >>= fun v => pure (.list (xs.set i.1 v)) := by
  rw [stepList.eq_def]
  simp only [if_neg hif, if_neg hor, if_neg hand]
  rw [hfind]
  simp

theorem stepList_lambda_app (xs fs ps : List Data)
    (hif : jsOr (jsIdx xs 0) nilD ≠ SYM_IF)
    (hor : jsOr (jsIdx xs 0) nilD ≠ SYM_OR)
    (hand : jsOr (jsIdx xs 0) nilD ≠ SYM_AND)
    (hfind : findRedex xs = .ok none)
    (hfn : jsOr (jsIdx xs 0) nilD = .list fs)
    (hlam : jsIdx fs 0 = SYM_LAMBDA)
    (hps : jsOr (jsIdx fs 1) nilD = .list ps)
    (hlen : fs.length = 3)
    (hall : ps.all isSym = true) :
    stepList xs = rewrite (jsIdx fs 2) (buildMapping ps xs 0) := by
  rw [stepList.eq_def]
  simp only [if_neg hif, if_neg hor, if_neg hand]
  rw [hfind]
  simp only [ok_bind]
  rw [hfn]
  simp only [hlam, if_pos rfl]
  rw [hps]
  simp [hlen, hall]

theorem stepList_lambda_invalid (xs fs : List Data)
    (hif : jsOr (jsIdx xs 0) nilD ≠ SYM_IF)
    (hor : jsOr (jsIdx xs 0) nilD ≠ SYM_OR)
    (hand : jsOr (jsIdx xs 0) nilD ≠ SYM_AND)
    (hfind : findRedex xs = .ok none)
    (hfn : jsOr (jsIdx xs 0) nilD = .list fs)
    (hlam : jsIdx fs 0 = SYM_LAMBDA)
    (hbad : ∀ ps, jsOr (jsIdx fs 1) nilD = .list ps →
      ¬(fs.length = 3 ∧ ps.all isSym = true)) :
    stepList xs = .error .invalidLambdaShape := by
  rw [stepList.eq_def]
  simp only [if_neg hif, if_neg hor, if_neg hand]
  rw [hfind]
  simp only [ok_bind]
  rw [hfn]
  simp only [hlam, if_pos rfl]
  cases hps : jsOr (jsIdx fs 1) nilD with
  | list ps =>
      rw [if_pos trivial]
      show (if fs.length = 3 ∧ ps.all isSym = true then
              rewrite (jsIdx fs 2) (buildMapping ps xs 0)
            else throw Err.invalidLambdaShape) = Except.error Err.invalidLambdaShape
      rw [if_neg (hbad ps hps)]
      rfl
  | sym s => simp
  | str s => simp
  | num n => simp
  | undef => simp

theorem stepList_list_nonlambda (xs fs : List Data)
    (hif : jsOr (jsIdx xs 0) nilD ≠ SYM_IF)
    (hor : jsOr (jsIdx xs 0) nilD ≠ SYM_OR)
    (hand : jsOr (jsIdx xs 0) nilD ≠ SYM_AND)
    (hfind : findRedex xs = .ok none)
    (hfn : jsOr (jsIdx xs 0) nilD = .list fs)
    (hlam : jsIdx fs 0 ≠ SYM_LAMBDA) :
    stepList xs = .error .invalidOperator := by
  rw [stepList.eq_def]
  simp only [if_neg hif, if_neg hor, if_neg hand]
  rw [hfind]
  simp only [ok_bind]
  rw [hfn]
  simp only [if_neg hlam]
  rfl

theorem stepList_builtin_app (xs : List Data) (s : String)
    (hfn : jsOr (jsIdx xs 0) nilD = .sym s)
    (hb : isBuiltinName s = true)
    (hfind : findRedex xs = .ok none) :
    stepList xs = runBuiltin s (xs.drop 1) := by
  have hif : jsOr (jsIdx xs 0) nilD ≠ SYM_IF := by
    rw [hfn]
    intro hcon
    have : s = "if" := by injection hcon
    subst this
    simp [isBuiltinName, builtinNames] at hb
  have hor : jsOr (jsIdx xs 0) nilD ≠ SYM_OR := by
    rw [hfn]
    intro hcon
    have : s = "or" := by injection hcon
    subst this
    simp [isBuiltinName, builtinNames] at hb
  have hand : jsOr (jsIdx xs 0) nilD ≠ SYM_AND := by
    rw [hfn]
    intro hcon
    have : s = "and" := by injection hcon
    subst this
    simp [isBuiltinName, builtinNames] at hb
  rw [stepList.eq_def]
  simp only [if_neg hif, if_neg hor, if_neg hand]
  rw [hfind]
  simp only [ok_bind]
  rw [hfn]
  simp [hb]

theorem stepList_sym_nonbuiltin (xs : List Data) (s : String)
    (hif : jsOr (jsIdx xs 0) nilD ≠ SYM_IF)
    (hor : jsOr (jsIdx xs 0) nilD ≠ SYM_OR)
    (hand : jsOr (jsIdx xs 0) nilD ≠ SYM_AND)
    (hfind : findRedex xs = .ok none)
    (hfn : jsOr (jsIdx xs 0) nilD = .sym s)
    (hb : isBuiltinName s = false) :
    stepList xs = .error (.undefinedSymbol s) := by
  rw [stepList.eq_def]
  simp only [if_neg hif, if_neg hor, if_neg hand]
  rw [hfind]
  simp only [ok_bind]
  rw [hfn]
  simp only [hb]
  rfl

theorem stepList_bad_operator (xs : List Data)
    (hif : jsOr (jsIdx xs 0) nilD ≠ SYM_IF)
    (hor : jsOr (jsIdx xs 0) nilD ≠ SYM_OR)
    (hand : jsOr (jsIdx xs 0) nilD ≠ SYM_AND)
    (hfind : findRedex xs = .ok none)
    (hnsym : ∀ s, jsOr (jsIdx xs 0) nilD ≠ .sym s)
    (hnlist : ∀ fs, jsOr (jsIdx xs 0) nilD ≠ .list fs) :
    stepList xs = .error .invalidOperator := by
  rw [stepList.eq_def]
  simp only [if_neg hif, if_neg hor, if_neg hand]
  rw [hfind]
  simp only [ok_bind]
  cases hfn : jsOr (jsIdx xs 0) nilD with
  | sym s => exact absurd hfn (hnsym s)
  | list fs => exact absurd hfn (hnlist fs)
  | str s => rfl
  | num n => rfl
  | undef => rfl

theorem jsOr_eq_sym_inv (a : Data) (s : String) (h : jsOr a nilD = .sym s) :
    a = .sym s := by
  cases a with
  | undef => simp [jsOr, nilD] at h
  | sym t => simpa [jsOr] using h
  | str t => simp [jsOr] at h
  | num n => simp [jsOr] at h
  | list l => simp [jsOr] at h

theorem jsOr_of_ne_undef (a b : Data) (h : a ≠ .undef) : jsOr a b = a := by
  cases a <;> first | rfl | exact absurd rfl h

theorem mem_ne_list (a : Data) (xs : List Data) (h : a ∈ xs) : a ≠ .list xs := by
  intro heq
  subst heq
  have h1 := List.sizeOf_lt_of_mem h
  simp only [Data.list.sizeOf_spec] at h1
  omega

theorem set_eq_self_imp (xs : List Data) (i : Nat) (v : Data) (hlt : i < xs.length)
    (h : xs.set i v = xs) : v = xs.get ⟨i, hlt⟩ := by
  have h1 : (xs.set i v)[i]? = some v := List.getElem?_set_eq hlt
  rw [h] at h1
  have h2 : xs[i]? = some (xs.get ⟨i, hlt⟩) := by
    rw [List.getElem?_eq_getElem hlt]
    simp [List.get_eq_getElem]
  rw [h1] at h2
  injection h2 with h3

theorem assertCons_ok (v : Data) (p : Data × Data) (h : assertCons v = .ok p) :
    v = .list [SYM_CONS, p.1, p.2] := by
  revert h
  unfold assertCons
  split
  · rename_i c hh tt
    split
    · rename_i hcons
      intro h
      simp only [pure_eq_ok, Except.ok.injEq] at h
      subst h
      rw [hcons]
    · intro h
      simp at h
  · intro h
    simp at h

theorem typeofBuiltin_shape (v : Data) : ∃ k, typeofBuiltin v = .list [SYM_QUOTE, k] := by
  unfold typeofBuiltin
  split
  · exact ⟨_, rfl⟩
  · split
    · exact ⟨_, rfl⟩
    · exact ⟨_, rfl⟩

theorem stepList_sf_canStep_error (x0 c : Data) (rest : List Data) (e : Err)
    (hsf : x0 = SYM_IF ∨ x0 = SYM_OR ∨ x0 = SYM_AND)
    (hc : canStep c = .error e) :
    stepList (x0 :: c :: rest) = .error e := by
  rw [stepList.eq_def]
  rcases hsf with rfl | rfl | rfl <;>
    simp [jsIdx_cons_zero, jsOr, hc, SYM_IF, SYM_OR, SYM_AND]

theorem stepList_app_findRedex_error (xs : List Data) (e : Err)
    (hif : jsOr (jsIdx xs 0) nilD ≠ SYM_IF)
    (hor : jsOr (jsIdx xs 0) nilD ≠ SYM_OR)
    (hand : jsOr (jsIdx xs 0) nilD ≠ SYM_AND)
    (hfr : findRedex xs = .error e) :
    stepList xs = .error e := by
  rw [stepList.eq_def]
  simp only [if_neg hif, if_neg hor, if_neg hand]
  rw [hfr]
  simp

-- Lookup lemmas for the argument mapping built by the lambda case.
theorem mapGet_append_of_none (m1 m2 : Mapping) (s : String)
    (h : mapGet m1 s = none) : mapGet (m1 ++ m2) s = mapGet m2 s := by
  unfold mapGet at *
  rw [List.find?_append]
  cases hf : m1.find? (fun e => e.1 == s) with
  | none => rfl
  | some v => rw [hf] at h; simp at h

theorem mapGet_append_of_some (m1 m2 : Mapping) (s : String) (v : Data)
    (h : mapGet m1 s = some v) : mapGet (m1 ++ m2) s = some v := by
  unfold mapGet at *
  rw [List.find?_append]
  cases hf : m1.find? (fun e => e.1 == s) with
  | none => rw [hf] at h; simp at h
  | some p => rw [hf] at h; simpa using h

theorem mapGet_buildMapping_not_mem (ps xs : List Data) (i : Nat) (s : String)
    (h : ∀ p ∈ ps, symName p ≠ s) : mapGet (buildMapping ps xs i) s = none := by
  induction ps generalizing i with
  | nil => rfl
  | cons p rest ih =>
      rw [buildMapping]
      rw [mapGet_append_of_none _ _ _ (ih (i + 1) (fun q hq => h q (by simp [hq])))]
      have hp : symName p ≠ s := h p (by simp)
      simp [mapGet, hp]

theorem mapGet_buildMapping_last (ps xs : List Data) (i j : Nat)
    (hj : j < ps.length)
    (hlast : ∀ k, j < k → k < ps.length →
      symName (jsIdx ps k) ≠ symName (jsIdx ps j)) :
    mapGet (buildMapping ps xs i) (symName (jsIdx ps j)) =
      some (jsOr (jsIdx xs (i + j + 1)) nilD) := by
  induction ps generalizing i j with
  | nil => simp at hj
  | cons p rest ih =>
      rw [buildMapping]
      cases j with
      | zero =>
          rw [jsIdx_cons_zero]
          have hnone : mapGet (buildMapping rest xs (i + 1)) (symName p) = none := by
            apply mapGet_buildMapping_not_mem
            intro q hq
            obtain ⟨n, rfl⟩ := List.mem_iff_get.mp hq
            have hb : n.1 + 1 < (p :: rest).length := by
              have h2 := n.2
              have hlen : (p :: rest).length = rest.length + 1 := rfl
              omega
            have h1 := hlast (n.1 + 1) (by omega) hb
            rw [jsIdx_cons_succ, jsIdx_cons_zero] at h1
            rwa [jsIdx_eq_get rest n.1 n.2] at h1
          rw [mapGet_append_of_none _ _ _ hnone]
          simp [mapGet]
      | succ k =>
          rw [jsIdx_cons_succ]
          have hk : k < rest.length := by
            have hlen : (p :: rest).length = rest.length + 1 := rfl
            omega
          have hfirst := ih (i + 1) k hk
            (fun k' hk1 hk2 => by
              have hb : k' + 1 < (p :: rest).length := by
                have hlen : (p :: rest).length = rest.length + 1 := rfl
                omega
              have h1 := hlast (k' + 1) (by omega) hb
              rwa [jsIdx_cons_succ, jsIdx_cons_succ] at h1)
          rw [mapGet_append_of_some _ _ _ _ hfirst]
          have harith : i + 1 + k + 1 = i + (k + 1) + 1 := by omega
          rw [harith]

/-- No builtin invocation can return the very application list it was
dispatched from: numbers and quote-headed results have the wrong shape,
`car`/`cdr` return strict subterms, and a `cons`-headed input would have
taken `canStep`'s cons branch, contradicting reducibility. -/
theorem runBuiltin_ne_self (xs : List Data) (s : String)
    (hfn : jsOr (jsIdx xs 0) nilD = .sym s)
    (hb : isBuiltinName s = true)
    (hall : ∀ a ∈ xs, canStep a = .ok false)
    (hc : canStep (.list xs) = .ok true) :
    runBuiltin s (xs.drop 1) ≠ .ok (.list xs) := by
  intro heq
  have hx0 : jsIdx xs 0 = .sym s := jsOr_eq_sym_inv _ _ hfn
  obtain ⟨tl, rfl⟩ : ∃ tl, xs = .sym s :: tl := by
    cases xs with
    | nil => simp [jsIdx] at hx0
    | cons h t =>
        rw [jsIdx_cons_zero] at hx0
        exact ⟨t, by rw [hx0]⟩
  have hdrop : (Data.sym s :: tl).drop 1 = tl := rfl
  rw [hdrop] at heq
  have hmem : s ∈ builtinNames := by simpa [isBuiltinName] using hb
  simp only [builtinNames, List.mem_cons, List.not_mem_nil, or_false] at hmem
  rcases hmem with rfl|rfl|rfl|rfl|rfl|rfl|rfl|rfl|rfl|rfl|rfl|rfl|rfl|rfl|rfl|rfl|rfl|rfl|rfl|rfl|rfl|rfl|rfl|rfl
  -- add sub mul div rem pow
  · simp [runBuiltin, bind_eq_ok] at heq
  · simp [runBuiltin, bind_eq_ok] at heq
  · simp [runBuiltin, bind_eq_ok] at heq
  · simp [runBuiltin, bind_eq_ok] at heq
  · simp [runBuiltin, bind_eq_ok] at heq
  · simp [runBuiltin, bind_eq_ok] at heq
  -- band bor bxor bnot shl shr shru
  · simp [runBuiltin, bind_eq_ok] at heq
  · simp [runBuiltin, bind_eq_ok] at heq
  · simp [runBuiltin, bind_eq_ok] at heq
  · simp [runBuiltin, bind_eq_ok] at heq
  · simp [runBuiltin, bind_eq_ok] at heq
  · simp [runBuiltin, bind_eq_ok] at heq
  · simp [runBuiltin, bind_eq_ok] at heq
  -- eql neq
  · simp [runBuiltin, trueD, nilD, ite_eq_iff, SYM_QUOTE] at heq
  · simp [runBuiltin, trueD, nilD, ite_eq_iff, SYM_QUOTE] at heq
  -- gt gte lt lte
  · simp [runBuiltin, bind_eq_ok, trueD, nilD, ite_eq_iff, SYM_QUOTE] at heq
  · simp [runBuiltin, bind_eq_ok, trueD, nilD, ite_eq_iff, SYM_QUOTE] at heq
  · simp [runBuiltin, bind_eq_ok, trueD, nilD, ite_eq_iff, SYM_QUOTE] at heq
  · simp [runBuiltin, bind_eq_ok, trueD, nilD, ite_eq_iff, SYM_QUOTE] at heq
  -- not
  · simp [runBuiltin, trueD, nilD, ite_eq_iff, SYM_QUOTE] at heq
  -- cons
  · simp only [runBuiltin, pure_eq_ok, Except.ok.injEq, SYM_CONS] at heq
    have htl : tl = [jsOr (jsIdx tl 0) nilD, jsOr (jsIdx tl 1) nilD] := by
      injection heq with h'
      injection h' with h1 h2
      exact h2.symm
    have h1 : jsIdx tl 0 = jsOr (jsIdx tl 0) nilD := by
      conv_lhs => rw [htl]
      exact jsIdx_cons_zero _ _
    have h2 : jsIdx tl 1 = jsOr (jsIdx tl 1) nilD := by
      conv_lhs => rw [htl]
      rw [jsIdx_cons_succ, jsIdx_cons_zero]
    have hm0 : jsIdx tl 0 ∈ tl := by
      rcases jsIdx_mem_or_undef tl 0 with hm | hu
      · exact hm
      · rw [hu] at h1
        exact absurd h1.symm (jsOr_nilD_ne_undef _)
    have hm1 : jsIdx tl 1 ∈ tl := by
      rcases jsIdx_mem_or_undef tl 1 with hm | hu
      · exact hm
      · rw [hu] at h2
        exact absurd h2.symm (jsOr_nilD_ne_undef _)
    have hcs0 : canStep (jsIdx tl 0) = .ok false :=
      hall _ (List.mem_cons_of_mem _ hm0)
    have hcs1 : canStep (jsIdx tl 1) = .ok false :=
      hall _ (List.mem_cons_of_mem _ hm1)
    have hhead : jsIdx (Data.sym "cons" :: tl) 0 = SYM_CONS := by
      rw [jsIdx_cons_zero]
      rfl
    rw [canStep_cons_head _ hhead, jsIdx_cons_succ, jsIdx_cons_succ,
      ← h1, ← h2, hcs0] at hc
    simp [hcs1] at hc
  -- car
  · simp only [runBuiltin] at heq
    rw [bind_eq_ok] at heq
    obtain ⟨p, hp, hres⟩ := heq
    simp only [pure_eq_ok, Except.ok.injEq] at hres
    have hv := assertCons_ok _ _ hp
    have hm : jsIdx tl 0 ∈ tl := by
      rcases jsIdx_mem_or_undef tl 0 with hm | hu
      · exact hm
      · rw [hu] at hv
        simp at hv
    have ha : sizeOf (jsIdx tl 0) < sizeOf tl := List.sizeOf_lt_of_mem hm
    rw [hv, hres] at ha
    simp only [Data.list.sizeOf_spec, List.cons.sizeOf_spec, List.nil.sizeOf_spec] at ha
    omega
  -- cdr
  · simp only [runBuiltin] at heq
    rw [bind_eq_ok] at heq
    obtain ⟨p, hp, hres⟩ := heq
    simp only [pure_eq_ok, Except.ok.injEq] at hres
    have hv := assertCons_ok _ _ hp
    have hm : jsIdx tl 0 ∈ tl := by
      rcases jsIdx_mem_or_undef tl 0 with hm | hu
      · exact hm
      · rw [hu] at hv
        simp at hv
    have ha : sizeOf (jsIdx tl 0) < sizeOf tl := List.sizeOf_lt_of_mem hm
    rw [hv, hres] at ha
    simp only [Data.list.sizeOf_spec, List.cons.sizeOf_spec, List.nil.sizeOf_spec] at ha
    omega
  -- typeof
  · simp only [runBuiltin, pure_eq_ok, Except.ok.injEq] at heq
    obtain ⟨k, hk⟩ := typeofBuiltin_shape (jsIdx tl 0)
    rw [hk] at heq
    simp [SYM_QUOTE] at heq

theorem select_elem_ne (x0 c : Data) (rest : List Data) (k : Nat) :
    jsIdx (x0 :: c :: rest) k ≠ .list (x0 :: c :: rest) := by
  rcases jsIdx_mem_or_undef (x0 :: c :: rest) k with hm | hu
  · exact mem_ne_list _ _ hm
  · rw [hu]
    exact fun h => Data.noConfusion h

theorem nilD_ne_list_head (x0 c : Data) (rest : List Data) (hx0 : x0 ≠ SYM_QUOTE) :
    nilD ≠ .list (x0 :: c :: rest) := by
  intro h
  unfold nilD at h
  injection h with h'
  injection h' with h1 h2
  exact hx0 h1.symm

theorem select_or_nil_ne (x0 c : Data) (rest : List Data) (k : Nat)
    (hx0 : x0 ≠ SYM_QUOTE) :
    jsOr (jsIdx (x0 :: c :: rest) k) nilD ≠ .list (x0 :: c :: rest) := by
  by_cases hu : jsIdx (x0 :: c :: rest) k = .undef
  · rw [hu]
    show jsOr .undef nilD ≠ _
    rw [show jsOr .undef nilD = nilD from rfl]
    exact nilD_ne_list_head x0 c rest hx0
  · rw [jsOr_of_ne_undef _ _ hu]
    exact select_elem_ne x0 c rest k

/-- The crux of the progress analysis: whenever a reducible term steps to
a value structurally identical to itself, the cause is a self-reproducing
lambda application somewhere on the reduced spine. -/
theorem step_id_blame_aux : ∀ n, ∀ t : Data, sizeOf t ≤ n →
    canStep t = .ok true → step t = .ok t → ∃ s, Sub s t ∧ LamAppFix s := by
  intro n
  induction n with
  | zero =>
      intro t ht
      have := one_le_sizeOf t
      omega
  | succ n ih =>
      intro t ht hc hs
      have hs0 := hs
      cases t with
      | num m => simp [canStep] at hc
      | str s => simp [canStep] at hc
      | undef => simp [canStep] at hc
      | sym s =>
          rw [step, hc] at hs
          simp at hs
      | list xs =>
          rw [step_list_eq xs hc] at hs
          by_cases hsf : jsOr (jsIdx xs 0) nilD = SYM_IF ∨
              jsOr (jsIdx xs 0) nilD = SYM_OR ∨ jsOr (jsIdx xs 0) nilD = SYM_AND
          · -- special-form head
            cases xs with
            | nil =>
                rw [stepList_sf_short [] hsf (fun a b r h => by simp at h)] at hs
                simp at hs
            | cons x0 tl =>
                cases tl with
                | nil =>
                    rw [stepList_sf_short [x0] hsf (fun a b r h => by simp at h)] at hs
                    simp at hs
                | cons c rest =>
                    have hx0 : x0 = SYM_IF ∨ x0 = SYM_OR ∨ x0 = SYM_AND := by
                      rw [jsIdx_cons_zero] at hsf
                      rcases hsf with hf | hf | hf
                      · exact Or.inl (jsOr_eq_sym_inv x0 "if" hf)
                      · exact Or.inr (Or.inl (jsOr_eq_sym_inv x0 "or" hf))
                      · exact Or.inr (Or.inr (jsOr_eq_sym_inv x0 "and" hf))
                    cases hcc : canStep c with
                    | error e =>
                        rw [stepList_sf_canStep_error x0 c rest e hx0 hcc] at hs
                        simp at hs
                    | ok b =>
                        cases b with
                        | true =>
                            rw [stepList_sf_reduce x0 c rest hx0 hcc] at hs
                            rw [bind_eq_ok] at hs
                            obtain ⟨v, hv, hpv⟩ := hs
                            simp only [pure_eq_ok, Except.ok.injEq, Data.list.injEq,
                              List.cons.injEq] at hpv
                            obtain ⟨-, hvc, -⟩ := hpv
                            have hvc2 := hvc.symm
                            subst hvc2
                            have hsz : sizeOf c ≤ n := by
                              have hm := List.sizeOf_lt_of_mem
                                (show c ∈ x0 :: c :: rest by simp)
                              simp only [Data.list.sizeOf_spec] at ht
                              omega
                            obtain ⟨s, hsub, hfix⟩ := ih c hsz hcc hv
                            exact ⟨s, Sub.there (by simp) hsub, hfix⟩
                        | false =>
                            rcases hx0 with rfl | rfl | rfl
                            · rw [stepList_if_select _ c rest rfl hcc] at hs
                              by_cases hn : isNil c
                              · rw [if_pos hn] at hs
                                simp only [pure_eq_ok, Except.ok.injEq] at hs
                                exact absurd hs
                                  (select_or_nil_ne SYM_IF c rest 3 (by decide))
                              · rw [if_neg hn] at hs
                                simp only [pure_eq_ok, Except.ok.injEq] at hs
                                exact absurd hs (select_elem_ne SYM_IF c rest 2)
                            · rw [stepList_or_select _ c rest rfl hcc] at hs
                              by_cases hn : isNil c
                              · rw [if_pos hn] at hs
                                simp only [pure_eq_ok, Except.ok.injEq] at hs
                                exact absurd hs (select_elem_ne SYM_OR c rest 2)
                              · rw [if_neg hn] at hs
                                simp only [pure_eq_ok, Except.ok.injEq] at hs
                                exact absurd hs (mem_ne_list c _ (by simp))
                            · rw [stepList_and_select _ c rest rfl hcc] at hs
                              by_cases hn : isNil c
                              · rw [if_pos hn] at hs
                                simp only [pure_eq_ok, Except.ok.injEq] at hs
                                exact absurd hs
                                  (nilD_ne_list_head SYM_AND c rest (by decide))
                              · rw [if_neg hn] at hs
                                simp only [pure_eq_ok, Except.ok.injEq] at hs
                                exact absurd hs (select_elem_ne SYM_AND c rest 2)
          · -- general application
            push_neg at hsf
            obtain ⟨hif, hor, hand⟩ := hsf
            cases hfr : findRedex xs with
            | error e =>
                rw [stepList_app_findRedex_error xs e hif hor hand hfr] at hs
                simp at hs
            | ok r =>
                cases r with
                | some i =>
                    rw [stepList_app_redex xs hif hor hand i hfr] at hs
                    rw [bind_eq_ok] at hs
                    obtain ⟨v, hv, hpv⟩ := hs
                    simp only [pure_eq_ok, Except.ok.injEq, Data.list.injEq] at hpv
                    have hvc : v = xs.get i := by
                      have := set_eq_self_imp xs i.1 v i.2 hpv
                      simpa using this
                    subst hvc
                    have hct := (findRedex_some_spec xs i hfr).1
                    have hsz : sizeOf (xs.get i) ≤ n := by
                      have hm := List.sizeOf_lt_of_mem (List.get_mem xs i.1 i.2)
                      simp only [Data.list.sizeOf_spec] at ht
                      have : xs.get ⟨i.1, i.2⟩ = xs.get i := by simp
                      rw [this] at hm
                      omega
                    obtain ⟨s, hsub, hfix⟩ := ih (xs.get i) hsz hct hv
                    refine ⟨s, Sub.there ?_ hsub, hfix⟩
                    have := List.get_mem xs i.1 i.2
                    simpa using this
                | none =>
                    cases hop : jsOr (jsIdx xs 0) nilD with
                    | list fs =>
                        by_cases hlam : jsIdx fs 0 = SYM_LAMBDA
                        · exact ⟨.list xs, Sub.here _, hc, hs0, ⟨xs, fs, rfl, hop, hlam⟩⟩
                        · rw [stepList_list_nonlambda xs fs hif hor hand hfr hop hlam] at hs
                          simp at hs
                    | sym sb =>
                        by_cases hbn : isBuiltinName sb
                        · rw [stepList_builtin_app xs sb hop hbn hfr] at hs
                          exact absurd hs
                            (runBuiltin_ne_self xs sb hop hbn (findRedex_none_mem xs hfr) hc)
                        · rw [stepList_sym_nonbuiltin xs sb hif hor hand hfr hop
                            (by simpa using hbn)] at hs
                          simp at hs
                    | num m =>
                        rw [stepList_bad_operator xs hif hor hand hfr
                          (fun s2 h => by rw [hop] at h; exact Data.noConfusion h)
                          (fun fs h => by rw [hop] at h; exact Data.noConfusion h)] at hs
                        simp at hs
                    | str s2 =>
                        rw [stepList_bad_operator xs hif hor hand hfr
                          (fun s3 h => by rw [hop] at h; exact Data.noConfusion h)
                          (fun fs h => by rw [hop] at h; exact Data.noConfusion h)] at hs
                        simp at hs
                    | undef =>
                        rw [stepList_bad_operator xs hif hor hand hfr
                          (fun s3 h => by rw [hop] at h; exact Data.noConfusion h)
                          (fun fs h => by rw [hop] at h; exact Data.noConfusion h)] at hs
                        simp at hs

/-! ## Claim theorems -/

/-- C5: for every term `t` with `canStep(t) = Except.ok false`, `step(t)`
returns `t` unchanged — `step` is the identity function on irreducible
terms (the source's final `else return input`). -/
theorem step_fixed_point (t : Data) (h : canStep t = .ok false) : step t = .ok t :=
  step_irreducible t h

theorem step_fixed_point_witness :
    canStep (Data.num 1) = .ok false ∧ step (Data.num 1) = .ok (Data.num 1) :=
  ⟨by simp [canStep], step_fixed_point (Data.num 1) (by simp [canStep])⟩

/-- C10: every Text term (a string value that is not a Symbol) is in
normal form: `canStep` returns false on it and `step` returns it
unchanged. -/
theorem text_normal_form (s : String) :
    canStep (.str s) = .ok false ∧ step (.str s) = .ok (.str s) :=
  ⟨by simp [canStep], step_irreducible _ (by simp [canStep])⟩

theorem text_normal_form_witness :
    canStep (.str "hi") = .ok false ∧ step (.str "hi") = .ok (.str "hi") :=
  text_normal_form "hi"

/-- C9: stepping a bare Symbol that is not a builtin name raises
`UndefinedSymbol`, and stepping `(car 5)` raises the `TypeError` kind;
both abort the `step` call (an `Except.error`, no partial term). -/
theorem step_undefined_symbol_and_car_type_error (s : String)
    (h : isBuiltinName s = false) :
    step (.sym s) = .error (.undefinedSymbol s) ∧
    step (.list [.sym "car", .num 5]) = .error .typeErr := by
  refine ⟨step_sym_nonbuiltin s h, ?_⟩
  simp [step, stepList, canStep, findRedex, runBuiltin, assertCons,
    isBuiltinName, builtinNames, jsIdx, jsOr, isNil, isSym,
    SYM_IF, SYM_OR, SYM_AND, SYM_CONS, SYM_QUOTE, SYM_LAMBDA, nilD, trueD]

theorem step_undefined_symbol_and_car_type_error_witness :
    step (.sym "undefined-name") = .error (.undefinedSymbol "undefined-name") ∧
    step (.list [.sym "car", .num 5]) = .error .typeErr :=
  step_undefined_symbol_and_car_type_error "undefined-name" (by decide)

/-- C2 as stated is false: `(quote 5)` is a List with head `quote`, yet
`canStep` returns true on it (only quoted symbols and `(quote ())` are
filtered before the default-true case). -/
theorem canStep_quote_cex :
    ¬ (∀ xs : List Data, (jsIdx xs 0 = SYM_QUOTE ∨ jsIdx xs 0 = SYM_LAMBDA) →
        canStep (.list xs) = .ok false) := by
  intro hcl
  have h2 := hcl [SYM_QUOTE, .num 5] (Or.inl (by simp [jsIdx]))
  have hc : canStep (.list [SYM_QUOTE, .num 5]) = .ok true := by
    simp [canStep, jsIdx, isNil, isSym, SYM_CONS, SYM_QUOTE, SYM_LAMBDA]
  rw [hc] at h2
  exact absurd h2 (by simp)

/-- C2 amended: a `lambda`-headed List is always canStep-false regardless
of contents; a `quote`-headed List is canStep-false exactly when its
second element is a Symbol or an empty List (so `(quote 5)`,
`(quote "s")`, `(quote (1 2))` and bare `(quote)` are all canStep-true). -/
theorem canStep_quote_lambda_forms (xs : List Data) :
    (jsIdx xs 0 = SYM_LAMBDA → canStep (.list xs) = .ok false) ∧
    (jsIdx xs 0 = SYM_QUOTE →
      (canStep (.list xs) = .ok false ↔
        (isSym (jsIdx xs 1) = true ∨ jsIdx xs 1 = .list []))) :=
  ⟨fun h => canStep_lambda_head xs h, fun h => (canStep_quote_head xs h).1⟩

theorem canStep_quote_lambda_forms_witness :
    canStep (.list [SYM_LAMBDA, .num 7]) = .ok false ∧
    canStep (.list [SYM_QUOTE, .sym "a"]) = .ok false := by
  constructor
  · exact (canStep_quote_lambda_forms [SYM_LAMBDA, .num 7]).1 (by simp [jsIdx])
  · exact ((canStep_quote_lambda_forms [SYM_QUOTE, .sym "a"]).2
      (by simp [jsIdx])).mpr (Or.inl (by simp [jsIdx, isSym]))

/-- C6: stepping `(if (quote true) 1 (div 1 0))` yields `1` in one step
with no error, and `1` is a normal form — the `div` branch is never
reduced.  In general, `(if (quote true) A B)` steps to `A` without
touching `B`, and `(if (quote ()) A B)` steps to `B` without touching
`A`, whatever the (term) branches are. -/
theorem if_short_circuit :
    (step (.list [SYM_IF, trueD, .num 1, .list [.sym "div", .num 1, .num 0]]) =
        .ok (.num 1) ∧
      canStep (.num 1) = .ok false) ∧
    (∀ A B : Data, B ≠ .undef →
      step (.list [SYM_IF, trueD, A, B]) = .ok A ∧
      step (.list [SYM_IF, nilD, A, B]) = .ok B) := by
  refine ⟨⟨?_, by simp [canStep]⟩, fun A B hB => ⟨?_, ?_⟩⟩
  · simp [step, stepList, canStep, isBuiltinName, builtinNames, jsIdx, jsOr,
      isNil, isSym, SYM_IF, SYM_OR, SYM_AND, SYM_CONS, SYM_QUOTE, SYM_LAMBDA,
      trueD, nilD]
  · simp [step, stepList, canStep, isBuiltinName, builtinNames, jsIdx, jsOr,
      isNil, isSym, SYM_IF, SYM_OR, SYM_AND, SYM_CONS, SYM_QUOTE, SYM_LAMBDA,
      trueD, nilD]
  · cases B <;>
      simp [step, stepList, canStep, isBuiltinName, builtinNames, jsIdx, jsOr,
        isNil, isSym, SYM_IF, SYM_OR, SYM_AND, SYM_CONS, SYM_QUOTE, SYM_LAMBDA,
        trueD, nilD] <;> exact absurd rfl hB

theorem if_short_circuit_witness :
    step (.list [SYM_IF, trueD, .num 7, .num 8]) = .ok (.num 7) ∧
    step (.list [SYM_IF, nilD, .num 7, .num 8]) = .ok (.num 8) := by
  have h := if_short_circuit.2 (.num 7) (.num 8) (by simp)
  exact ⟨h.1, h.2⟩

/-- C8's "itself irreducible" is refuted: `canStep` of the zero-element
List `()` is not false (it is true — the empty list falls through to the
default-true case of `canStep`). -/
theorem empty_list_cex : ¬ (canStep (.list []) = .ok false) := by
  have h : canStep (.list []) = .ok true := by
    simp [canStep, jsIdx, isNil, SYM_CONS, SYM_QUOTE, SYM_LAMBDA]
  rw [h]
  simp

/-- C8 amended: the empty List `()` is a value distinct from
`nil = (quote ())` (`isNil` rejects it), but it is *reducible* in the
`canStep` sense (`canStep` returns true), and stepping it — bare, or in
operator position — raises `InvalidOperator` ("expected symbol"). -/
theorem empty_list_behavior :
    Data.list [] ≠ nilD ∧
    isNil (.list []) = false ∧
    canStep (.list []) = .ok true ∧
    step (.list []) = .error .invalidOperator ∧
    step (.list [.list [], .num 5]) = .error .invalidOperator := by
  refine ⟨by simp [nilD], by simp [isNil, jsIdx], ?_, ?_, ?_⟩ <;>
    simp [step, stepList, canStep, findRedex, runBuiltin, isBuiltinName,
      builtinNames, jsIdx, jsOr, isNil, isSym, SYM_IF, SYM_OR, SYM_AND,
      SYM_CONS, SYM_QUOTE, SYM_LAMBDA, nilD, trueD]

/-- C3 (code bug): `equals` checks only `r`'s indices (`r.every`), so the
`eql` builtin returns the canonical true term for `l = (1 2)`, `r = (1)`
even though the two lists are not structurally equal (different lengths);
`neq` answers the exact opposite on the same arguments. -/
theorem eql_prefix_bug :
    runBuiltin "eql" [.list [.num 1, .num 2], .list [.num 1]] = .ok trueD ∧
    runBuiltin "neq" [.list [.num 1, .num 2], .list [.num 1]] = .ok nilD ∧
    Data.list [.num 1, .num 2] ≠ Data.list [.num 1] := by
  refine ⟨?_, ?_, by decide⟩ <;>
    simp [runBuiltin, equals, equalsEvery, jsIdx, jsIndexOn, jsTypeof, trueD, nilD]

/-- C4 as stated is false: `(cons 1 2 (add 1 2))` is a List whose head is
not if/and/or and whose element 3 satisfies `canStep`, yet `step` returns
the input unchanged instead of replacing the leftmost reducible element —
`canStep` treats cons-headed lists specially (only elements 1 and 2
count), so the term is irreducible and `step` is a no-op on it. -/
theorem step_app_leftmost_cex :
    ¬ (∀ xs : List Data,
        jsIdx xs 0 ≠ SYM_IF → jsIdx xs 0 ≠ SYM_AND → jsIdx xs 0 ≠ SYM_OR →
        (∃ i, i < xs.length ∧ canStep (jsIdx xs i) = .ok true) →
        ∃ i v, i < xs.length ∧
          (∀ j < i, canStep (jsIdx xs j) = .ok false) ∧
          canStep (jsIdx xs i) = .ok true ∧
          step (jsIdx xs i) = .ok v ∧
          step (.list xs) = .ok (.list (xs.set i v))) := by
  intro hcl
  obtain ⟨i, v, hlt, hbefore, hi, hv, hstep⟩ := hcl
    [SYM_CONS, .num 1, .num 2, .list [.sym "add", .num 1, .num 2]]
    (by simp [jsIdx, SYM_CONS, SYM_IF])
    (by simp [jsIdx, SYM_CONS, SYM_AND])
    (by simp [jsIdx, SYM_CONS, SYM_OR])
    ⟨3, by simp, by
      simp [canStep, jsIdx, isNil, isSym, isBuiltinName, builtinNames,
        SYM_CONS, SYM_QUOTE, SYM_LAMBDA]⟩
  have hlt4 : i < 4 := by simpa using hlt
  interval_cases i
  · simp [canStep, jsIdx, isBuiltinName, builtinNames, SYM_CONS] at hi
  · simp [canStep, jsIdx] at hi
  · simp [canStep, jsIdx] at hi
  · have hv' : v = .num 3 := by
      simp [step, stepList, canStep, findRedex, runBuiltin, assertNumber,
        isBuiltinName, builtinNames, jsIdx, jsOr, isNil, isSym,
        SYM_IF, SYM_OR, SYM_AND, SYM_CONS, SYM_QUOTE, SYM_LAMBDA, nilD] at hv
      exact hv.symm
    subst hv'
    simp [step, stepList, canStep, findRedex, runBuiltin, isBuiltinName,
      builtinNames, jsIdx, jsOr, isNil, isSym, SYM_IF, SYM_OR, SYM_AND,
      SYM_CONS, SYM_QUOTE, SYM_LAMBDA, nilD] at hstep

/-- C4 amended: for a List term that is itself canStep-true and whose
operator position (element 0, defaulted to nil when absent) is not the
symbol if, or, or and, `step` reduces exactly the leftmost canStep-true
element in place — the result is the same-length list with only that
position replaced by the element's one-step reduction, and an error
raised by that reduction propagates. -/
theorem step_app_leftmost (xs : List Data) (i : Nat) (hlt : i < xs.length)
    (hc : canStep (.list xs) = .ok true)
    (hif : jsOr (jsIdx xs 0) nilD ≠ SYM_IF)
    (hor : jsOr (jsIdx xs 0) nilD ≠ SYM_OR)
    (hand : jsOr (jsIdx xs 0) nilD ≠ SYM_AND)
    (hbefore : ∀ j < i, canStep (jsIdx xs j) = .ok false)
    (hi : canStep (jsIdx xs i) = .ok true) :
    step (.list xs) = (step (jsIdx xs i)) >>= fun v => .ok (.list (xs.set i v)) := by
  rw [step_list_eq xs hc]
  have hfind := findRedex_eq_some xs i hlt hbefore hi
  rw [stepList_app_redex xs hif hor hand ⟨i, hlt⟩ hfind]
  rw [jsIdx_eq_get xs i hlt]
  rfl

theorem step_app_leftmost_witness :
    step (.list [.list [.sym "add", .num 1, .num 2], .num 7]) =
      .ok (.list [.num 3, .num 7]) := by
  have h := step_app_leftmost [.list [.sym "add", .num 1, .num 2], .num 7] 0
    (by simp)
    (by simp [canStep, jsIdx, isNil, isSym, SYM_CONS, SYM_QUOTE, SYM_LAMBDA])
    (by simp [jsIdx, jsOr, SYM_IF])
    (by simp [jsIdx, jsOr, SYM_OR])
    (by simp [jsIdx, jsOr, SYM_AND])
    (fun j hj => absurd hj (by omega))
    (by simp [canStep, jsIdx, isNil, isSym, SYM_CONS, SYM_QUOTE, SYM_LAMBDA])
  rw [h]
  simp [step, stepList, canStep, findRedex, runBuiltin, assertNumber,
    isBuiltinName, builtinNames, jsIdx, jsOr, isNil, isSym,
    SYM_IF, SYM_OR, SYM_AND, SYM_CONS, SYM_QUOTE, SYM_LAMBDA, nilD]

/-- C7: applying an all-normal-form application whose operator is a
valid-shape lambda substitutes the body (`rewrite`) under the positional
mapping: the entry for the parameter at index j (when no later parameter
reuses its name) is operand j, a missing operand binds `nil` (`jsOr` of
an absent index), and names outside the parameter list never enter the
mapping, so extra operands are ignored. -/
theorem step_lambda_application (params args : List Data) (body : Data)
    (hps : ∀ p ∈ params, isSym p = true)
    (hargs : ∀ a ∈ args, canStep a = .ok false) :
    step (.list (.list [SYM_LAMBDA, .list params, body] :: args)) =
      rewrite body
        (buildMapping params (.list [SYM_LAMBDA, .list params, body] :: args) 0) ∧
    (∀ j, j < params.length →
      (∀ k, j < k → k < params.length →
        symName (jsIdx params k) ≠ symName (jsIdx params j)) →
      mapGet (buildMapping params (.list [SYM_LAMBDA, .list params, body] :: args) 0)
          (symName (jsIdx params j)) = some (jsOr (jsIdx args j) nilD)) ∧
    (∀ s : String, (∀ p ∈ params, symName p ≠ s) →
      mapGet (buildMapping params (.list [SYM_LAMBDA, .list params, body] :: args) 0) s
        = none) := by
  refine ⟨?_, ?_, ?_⟩
  · have hop : canStep (.list [SYM_LAMBDA, .list params, body]) = .ok false :=
      canStep_lambda_head _ (by simp [jsIdx])
    have hfind : findRedex (.list [SYM_LAMBDA, .list params, body] :: args) = .ok none := by
      apply findRedex_eq_none
      intro a ha
      rcases List.mem_cons.mp ha with rfl | ha'
      · exact hop
      · exact hargs a ha'
    have hc : canStep (.list (.list [SYM_LAMBDA, .list params, body] :: args)) = .ok true := by
      apply canStep_list_other <;> simp [jsIdx, SYM_CONS, SYM_QUOTE, SYM_LAMBDA]
    rw [step_list_eq _ hc]
    have h := stepList_lambda_app (.list [SYM_LAMBDA, .list params, body] :: args)
      [SYM_LAMBDA, .list params, body] params
      (by simp [jsIdx, jsOr, SYM_IF])
      (by simp [jsIdx, jsOr, SYM_OR])
      (by simp [jsIdx, jsOr, SYM_AND])
      hfind
      (by simp [jsIdx, jsOr])
      (by simp [jsIdx])
      (by simp [jsIdx, jsOr])
      (by simp)
      (by rw [List.all_eq_true]; exact hps)
    rw [h]
    have hb : jsIdx [SYM_LAMBDA, .list params, body] 2 = body := by simp [jsIdx]
    rw [hb]
  · intro j hj hlast
    have h := mapGet_buildMapping_last params
      (.list [SYM_LAMBDA, .list params, body] :: args) 0 j hj hlast
    rw [h]
    congr 1
    have : 0 + j + 1 = j + 1 := by omega
    rw [this, jsIdx_cons_succ]
  · intro s hs
    exact mapGet_buildMapping_not_mem params _ 0 s hs

theorem step_lambda_application_witness :
    step (.list [.list [SYM_LAMBDA, .list [.sym "x"], .sym "x"], .num 5]) =
      .ok (.num 5) := by
  have h := (step_lambda_application [.sym "x"] [.num 5] (.sym "x")
    (by intro p hp; simp at hp; subst hp; rfl)
    (by intro a ha; simp at ha; subst ha; simp [canStep])).1
  rw [h]
  simp [rewrite, buildMapping, mapGet, symName, jsIdx, jsOr]

/-- C1 as stated is false: the self-application
`Ω = ((lambda (x) (x x)) (lambda (x) (x x)))` is a genuine term with
`canStep` true, yet `step(Ω)` neither raises an error nor returns a term
differing from Ω — it returns Ω itself (the substituted lambda body
reproduces the input), so "returns a term not structurally identical to
t" fails. -/
theorem step_progress_cex :
    ¬ (∀ t : Data, noUndef t = true → canStep t = .ok true →
        (∃ e, step t = .error e) ∨ (∃ u, step t = .ok u ∧ u ≠ t)) := by
  intro hcl
  have hstep : step omegaTerm = .ok omegaTerm := by
    simp [omegaTerm, omegaLam, step, stepList, canStep, findRedex, rewrite,
      rewriteList, runBuiltin, buildMapping, mapGet, mapDelete, deleteBindings,
      symName, isBuiltinName, builtinNames, jsIdx, jsOr, isNil, isSym,
      SYM_IF, SYM_OR, SYM_AND, SYM_CONS, SYM_QUOTE, SYM_LAMBDA, trueD, nilD]
  rcases hcl omegaTerm (by decide)
      (by simp [omegaTerm, omegaLam, canStep, jsIdx, isNil, isSym,
        SYM_CONS, SYM_QUOTE, SYM_LAMBDA])
    with ⟨e, he⟩ | ⟨u, hu, hne⟩
  · rw [hstep] at he
    simp at he
  · rw [hstep] at hu
    injection hu with hu2
    exact hne hu2.symm

/-- C1 amended: for every term `t` with `canStep(t) = true`, `step(t)`
terminates (it is a total function of the model) and either raises an
error, or returns a value different from `t`, or returns `t` itself — and
in that last case the cause is a self-reproducing lambda application:
some subterm `s` of `t` on the reduced spine (possibly `t` itself) has a
lambda-headed operator, is canStep-true, and satisfies `step(s) = s`
(e.g. Ω). -/
theorem step_progress_blame (t : Data) (hc : canStep t = .ok true) :
    (∃ e, step t = .error e) ∨ (∃ u, step t = .ok u ∧ u ≠ t) ∨
    (step t = .ok t ∧ ∃ s, Sub s t ∧ LamAppFix s) := by
  cases hst : step t with
  | error e => exact Or.inl ⟨e, rfl⟩
  | ok u =>
      by_cases hu : u = t
      · subst hu
        exact Or.inr (Or.inr ⟨rfl, step_id_blame_aux (sizeOf u) u le_rfl hc hst⟩)
      · exact Or.inr (Or.inl ⟨u, rfl, hu⟩)

theorem step_progress_blame_witness :
    (∃ e, step omegaTerm = .error e) ∨
    (∃ u, step omegaTerm = .ok u ∧ u ≠ omegaTerm) ∨
    (step omegaTerm = .ok omegaTerm ∧ ∃ s, Sub s omegaTerm ∧ LamAppFix s) :=
  step_progress_blame omegaTerm
    (by simp [omegaTerm, omegaLam, canStep, jsIdx, isNil, isSym,
      SYM_CONS, SYM_QUOTE, SYM_LAMBDA])

end Lang
